import Mathlib

/-!
Verification of the `rust-geo` algorithm core: the shoelace polygon area
(`src/algorithm/area.rs`) and the great-circle destination point
(`src/algorithm/haversine_destination.rs`).

Scalars: the Rust code is generic over `T : Float`.  The area algorithm uses
only field arithmetic, so it is embedded generically over a `Field`; concrete
evaluations instantiate it at `ℚ`.  The destination algorithm uses
transcendental functions and is embedded over `ℝ`.
-/

namespace Geo

/-- A point, a pair of scalar coordinates (`Point` / `PointTrait` with
accessors `x()` and `y()`). -/
structure Point (α : Type) where
  x : α
  y : α
deriving DecidableEq, Repr

/-- Embedding of `get_linestring_area` (area.rs lines 23-37).  The Rust code
takes the first point of the iterator as the initial `p1` (returning
`T::zero()` if there is none), then runs a loop carrying the mutable state
`(p1, tmp)`, adding `p1.x*p2.y - p2.x*p1.y` for each subsequent point `p2`,
and finally divides by `T::one() + T::one()`.  The loop is rendered as a
`foldl` over the remaining points carrying the same state pair. -/
def get_linestring_area {α : Type} [Field α] (ps : List (Point α)) : α :=
  match ps with
  | [] => 0
  | p1 :: rest =>
      (rest.foldl
        (fun (s : Point α × α) p2 => (p2, s.2 + (s.1.x * p2.y - p2.x * s.1.y)))
        (p1, (0 : α))).2 / (1 + 1)

/-- Result of the Rust `Area::area` call: `ok` is a normal return, `panic`
models a Rust panic (here raised by `Option::expect`), which unwinds/aborts
the call and is not a recoverable return value of the function, whose
declared type is plain `T` with no error channel. -/
inductive AreaResult (α : Type) where
  | ok : α → AreaResult α
  | panic : String → AreaResult α
deriving DecidableEq, Repr

/-- Embedding of `Area::area` for polygons (area.rs lines 43-50): take the
ring iterator; `expect` the first ring (panicking with
"no outer ring in polygon" when there is none); fold the remaining rings,
subtracting each ring's `get_linestring_area` from the accumulator seeded
with the outer ring's area. -/
def area {α : Type} [Field α] (rings : List (List (Point α))) : AreaResult α :=
  match rings with
  | [] => AreaResult.panic "no outer ring in polygon"
  | outer :: rest =>
      AreaResult.ok
        (rest.foldl (fun acc ring => acc - get_linestring_area ring)
          (get_linestring_area outer))

/-- Structural form of the shoelace loop: the running sum of
`p1.x*p2.y - p2.x*p1.y` over consecutive pairs, starting from a given `p1`. -/
def ringFold {α : Type} [Field α] : Point α → List (Point α) → α
  | _, [] => 0
  | p1, p2 :: rest => (p1.x * p2.y - p2.x * p1.y) + ringFold p2 rest

/-- The foldl with `(p1, tmp)` state computes `tmp + ringFold p1 l`. -/
lemma foldl_step_eq_ringFold {α : Type} [Field α] (l : List (Point α))
    (p1 : Point α) (t : α) :
    (l.foldl
      (fun (s : Point α × α) p2 => (p2, s.2 + (s.1.x * p2.y - p2.x * s.1.y)))
      (p1, t)).2 = t + ringFold p1 l := by
  induction l generalizing p1 t with
  | nil => simp [ringFold]
  | cons p2 l ih =>
      simp only [List.foldl_cons, ringFold]
      rw [ih]
      ring

/-- `get_linestring_area` on a nonempty list is `ringFold` of the head over
the tail, divided by two. -/
lemma get_linestring_area_cons {α : Type} [Field α] (p : Point α)
    (l : List (Point α)) :
    get_linestring_area (p :: l) = ringFold p l / (1 + 1) := by
  simp [get_linestring_area, foldl_step_eq_ringFold]

/-- Subtracting areas one by one in a left fold is subtracting their sum. -/
lemma foldl_sub_areas {α : Type} [Field α] (l : List (List (Point α)))
    (init : α) :
    l.foldl (fun acc ring => acc - get_linestring_area ring) init
      = init - (l.map get_linestring_area).sum := by
  induction l generalizing init with
  | nil => simp
  | cons r l ih =>
      simp only [List.foldl_cons, List.map_cons, List.sum_cons]
      rw [ih]
      ring

/-- The shoelace cross term of a consecutive point pair. -/
def crossTerm {α : Type} [Field α] (pq : Point α × Point α) : α :=
  pq.1.x * pq.2.y - pq.2.x * pq.1.y

/-- `ringFold p l` is the sum of the cross terms of the consecutive pairs of
`p :: l`. -/
lemma ringFold_eq_zip_sum {α : Type} [Field α] (l : List (Point α))
    (p : Point α) :
    ringFold p l = (((p :: l).zip l).map crossTerm).sum := by
  induction l generalizing p with
  | nil => simp [ringFold]
  | cons q l ih =>
      simp only [ringFold, List.zip_cons_cons, List.map_cons, List.sum_cons,
        crossTerm]
      rw [ih]

/-- C1: for a polygon whose ring sequence yields at least one ring, `area`
returns the shoelace area of the first (outer) ring minus the sum of the
shoelace areas of all subsequent (hole) rings. -/
theorem polygon_area_outer_sub_holes {α : Type} [Field α]
    (outer : List (Point α)) (rest : List (List (Point α))) :
    area (outer :: rest)
      = AreaResult.ok
          (get_linestring_area outer - (rest.map get_linestring_area).sum) := by
  simp [area, foldl_sub_areas]

/-- C2 counterexample: on a zero-ring polygon, `area` does not return a
recoverable error value named "missing outer ring"; it panics, and the panic
message is "no outer ring in polygon". -/
theorem area_empty_not_missing_outer_ring :
    area ([] : List (List (Point ℚ))) ≠ AreaResult.panic "missing outer ring"
      ∧ area ([] : List (List (Point ℚ)))
          = AreaResult.panic "no outer ring in polygon" := by
  constructor
  · decide
  · rfl

/-- C2 amended: on a zero-ring polygon `area` panics (the `expect` call
aborts the computation; the function's return type `T` has no error channel)
with the descriptive message "no outer ring in polygon"; it returns neither
zero nor any partial value. -/
theorem area_empty_panics (α : Type) [Field α] :
    area ([] : List (List (Point α)))
      = AreaResult.panic "no outer ring in polygon" := rfl

/-- C3: `get_linestring_area` is the sum of `p1.x*p2.y - p2.x*p1.y` over the
consecutive point pairs of the ring in iteration order (the pairs of the list
zipped with its tail — no wraparound pair), divided by 2. -/
theorem ring_area_eq_shoelace_sum {α : Type} [Field α]
    (ps : List (Point α)) :
    get_linestring_area ps = ((ps.zip ps.tail).map crossTerm).sum / 2 := by
  cases ps with
  | nil => simp [get_linestring_area]
  | cons p l =>
      rw [get_linestring_area_cons, ringFold_eq_zip_sum]
      norm_num

/-- C4: a ring with zero points or exactly one point has
`get_linestring_area` exactly zero. -/
theorem ring_area_nil_and_singleton {α : Type} [Field α] (p : Point α) :
    get_linestring_area ([] : List (Point α)) = 0
      ∧ get_linestring_area [p] = 0 := by
  constructor
  · rfl
  · simp [get_linestring_area]

/-- The shoelace numerator of a whole list: zero on the empty list,
otherwise the fold seeded with the head. -/
def ringSum {α : Type} [Field α] : List (Point α) → α
  | [] => 0
  | p :: l => ringFold p l

/-- `get_linestring_area` is `ringSum` divided by two. -/
lemma get_linestring_area_eq_ringSum {α : Type} [Field α]
    (ps : List (Point α)) :
    get_linestring_area ps = ringSum ps / (1 + 1) := by
  cases ps with
  | nil => simp [get_linestring_area, ringSum]
  | cons p l => rw [get_linestring_area_cons]; rfl

/-- Appending one more point after a final point `p` adds the cross term of
`(p, q)` to the fold. -/
lemma ringFold_append_pair {α : Type} [Field α] (l : List (Point α))
    (a p q : Point α) :
    ringFold a (l ++ [p, q]) = ringFold a (l ++ [p]) + crossTerm (p, q) := by
  induction l generalizing a with
  | nil =>
      simp only [List.nil_append, ringFold, crossTerm]
      ring
  | cons b l ih =>
      simp only [List.cons_append, ringFold, List.append_eq]
      rw [ih]
      ring

/-- `ringSum` version of `ringFold_append_pair`. -/
lemma ringSum_append_pair {α : Type} [Field α] (l : List (Point α))
    (p q : Point α) :
    ringSum (l ++ [p, q]) = ringSum (l ++ [p]) + crossTerm (p, q) := by
  cases l with
  | nil => simp [ringSum, ringFold, crossTerm]
  | cons a l =>
      simp only [List.cons_append, ringSum]
      exact ringFold_append_pair l a p q

/-- Reversing a point list negates the shoelace numerator. -/
lemma ringSum_reverse {α : Type} [Field α] (l : List (Point α)) :
    ringSum l.reverse = - ringSum l := by
  induction l with
  | nil => simp [ringSum]
  | cons p l ih =>
      cases l with
      | nil => simp [ringSum, ringFold]
      | cons h t =>
          have hrev : (p :: h :: t).reverse = t.reverse ++ [h, p] := by
            simp
          rw [hrev, ringSum_append_pair]
          have hrev2 : t.reverse ++ [h] = (h :: t).reverse :=
            (List.reverse_cons h t).symm
          rw [hrev2, ih]
          simp only [ringSum, ringFold, crossTerm]
          ring

/-- C6: reversing the order of a ring's points negates its signed
shoelace area. -/
theorem ring_area_reverse_neg {α : Type} [Field α] (ps : List (Point α)) :
    get_linestring_area ps.reverse = - get_linestring_area ps := by
  rw [get_linestring_area_eq_ringSum, get_linestring_area_eq_ringSum,
    ringSum_reverse, neg_div]

/-- Translation of a point by a fixed offset vector. -/
def translatePoint {α : Type} [Field α] (v p : Point α) : Point α :=
  Point.mk (p.x + v.x) (p.y + v.y)

@[simp] lemma translatePoint_x {α : Type} [Field α] (v p : Point α) :
    (translatePoint v p).x = p.x + v.x := rfl

@[simp] lemma translatePoint_y {α : Type} [Field α] (v p : Point α) :
    (translatePoint v p).y = p.y + v.y := rfl

/-- Translating every point shifts the shoelace fold by a telescoping
boundary term involving only the first and last points. -/
lemma ringFold_translate {α : Type} [Field α] (v : Point α)
    (l : List (Point α)) (p : Point α) :
    ringFold (translatePoint v p) (l.map (translatePoint v))
      = ringFold p l + v.y * (p.x - (l.getLastD p).x)
          + v.x * ((l.getLastD p).y - p.y) := by
  induction l generalizing p with
  | nil => simp [ringFold]
  | cons q l ih =>
      simp only [List.map_cons, ringFold, List.getLastD_cons]
      rw [ih]
      simp only [translatePoint_x, translatePoint_y]
      ring

/-- C7 counterexample: for the non-closed two-point ring
`[(0,0), (1,0)]` and the offset `(0,1)`, translation changes the ring's
area (from `0` to `-1/2`). -/
theorem ring_area_translate_counterexample :
    get_linestring_area
        (([Point.mk 0 0, Point.mk 1 0] :
            List (Point ℚ)).map (translatePoint (Point.mk 0 1)))
      ≠ get_linestring_area ([Point.mk 0 0, Point.mk 1 0] :
          List (Point ℚ)) := by
  norm_num [get_linestring_area, translatePoint]

/-- C7 amended: for every ring that is explicitly closed (its last point
equals its first point — the conventional closed form the data model
describes; vacuously including the empty ring), translating every point by
the same fixed offset leaves the ring's area unchanged. -/
theorem ring_area_translate_invariant_closed {α : Type} [Field α]
    (v : Point α) (ps : List (Point α))
    (h : ps.getLast? = ps.head?) :
    get_linestring_area (ps.map (translatePoint v))
      = get_linestring_area ps := by
  cases ps with
  | nil => rfl
  | cons p l =>
      have hlast : l.getLastD p = p := by
        rw [List.getLastD_eq_getLast?]
        rw [List.getLast?_cons, List.head?_cons] at h
        exact Option.some.inj h
      rw [List.map_cons, get_linestring_area_cons, ringFold_translate, hlast,
        get_linestring_area_cons]
      simp

/-- Witness for the amended C7 theorem: the closed rectangle ring
`(0,0),(5,0),(5,6),(0,6),(0,0)` translated by `(3,4)` keeps its area. -/
theorem ring_area_translate_invariant_closed_witness :
    ([Point.mk 0 0, Point.mk 5 0, Point.mk 5 6, Point.mk 0 6, Point.mk 0 0] :
          List (Point ℚ)).getLast?
        = ([Point.mk 0 0, Point.mk 5 0, Point.mk 5 6, Point.mk 0 6,
            Point.mk 0 0] : List (Point ℚ)).head?
      ∧ get_linestring_area
          (([Point.mk 0 0, Point.mk 5 0, Point.mk 5 6, Point.mk 0 6,
              Point.mk 0 0] : List (Point ℚ)).map
            (translatePoint (Point.mk 3 4)))
        = get_linestring_area
            ([Point.mk 0 0, Point.mk 5 0, Point.mk 5 6, Point.mk 0 6,
              Point.mk 0 0] : List (Point ℚ)) :=
  ⟨by rfl,
    ring_area_translate_invariant_closed (Point.mk 3 4) _ (by rfl)⟩

/-- Embedding of Rust's `Float::to_radians`: `self * (PI / 180)`. -/
noncomputable def toRadians (x : ℝ) : ℝ := x * (Real.pi / 180)

/-- Embedding of Rust's `Float::to_degrees`: `self * (180 / PI)`. -/
noncomputable def toDegrees (x : ℝ) : ℝ := x * (180 / Real.pi)

/-- Embedding of `Float::atan2(self = y, other = x)`: the four-quadrant
arctangent on finite inputs, with `atan2 0 0 = 0`. -/
noncomputable def atan2 (y x : ℝ) : ℝ :=
  if 0 < x then Real.arctan (y / x)
  else if x = 0 then
    if 0 < y then Real.pi / 2
    else if y < 0 then -(Real.pi / 2)
    else 0
  else if 0 ≤ y then Real.arctan (y / x) + Real.pi
  else Real.arctan (y / x) - Real.pi

/-- Embedding of `HaversineDestination::haversine_destination`
(haversine_destination.rs lines 23-41), with the Rust `let` bindings kept:
longitude, latitude and bearing converted to radians, the angular distance
`rad = distance / 6371000.0` (`T::from(6371000.0).unwrap()` always succeeds
for a float scalar and is embedded as the real constant), the arcsine
formula for the destination latitude, the `atan2` formula (plus the origin
longitude) for the destination longitude, both converted back to degrees in
a new `Point::new(lng, lat)`. -/
noncomputable def haversine_destination (p : Point ℝ) (bearing distance : ℝ) :
    Point ℝ :=
  let center_lng := toRadians p.x
  let center_lat := toRadians p.y
  let bearing_rad := toRadians bearing
  let rad := distance / 6371000
  let lat := Real.arcsin
    (Real.sin center_lat * Real.cos rad
      + Real.cos center_lat * Real.sin rad * Real.cos bearing_rad)
  let lng := atan2 (Real.sin bearing_rad * Real.sin rad * Real.cos center_lat)
      (Real.cos rad - Real.sin center_lat * Real.sin lat) + center_lng
  Point.mk (toDegrees lng) (toDegrees lat)

/-- The argument the code passes to `asin` when computing the destination
latitude. -/
noncomputable def asinArg (p : Point ℝ) (bearing distance : ℝ) : ℝ :=
  Real.sin (toRadians p.y) * Real.cos (distance / 6371000)
    + Real.cos (toRadians p.y) * Real.sin (distance / 6371000)
        * Real.cos (toRadians bearing)

/-- The `atan2` term the code adds to the origin longitude (in radians). -/
noncomputable def destLngOffset (p : Point ℝ) (bearing distance : ℝ) : ℝ :=
  atan2
    (Real.sin (toRadians bearing) * Real.sin (distance / 6371000)
      * Real.cos (toRadians p.y))
    (Real.cos (distance / 6371000)
      - Real.sin (toRadians p.y)
          * Real.sin (Real.arcsin (asinArg p bearing distance)))

/-- The code's destination point, written with the two named
sub-expressions. -/
lemma haversine_destination_unfold (p : Point ℝ) (bearing distance : ℝ) :
    haversine_destination p bearing distance
      = Point.mk (toDegrees (destLngOffset p bearing distance + toRadians p.x))
          (toDegrees (Real.arcsin (asinArg p bearing distance))) := rfl

/-- Modelled from the spec: step-by-step destination formula of §4.4 —
convert origin and bearing to radians, set the angular distance to
`distance / 6371000.0`, take `lat2 = asin(sin lat1 * cos δ +
cos lat1 * sin δ * cos bearing)` and `lon2 = lon1 + atan2(sin bearing *
sin δ * cos lat1, cos δ - sin lat1 * sin lat2)`, and return both converted
to degrees as a point with `x = lon2`, `y = lat2`. -/
noncomputable def haversineDestinationSpec (p : Point ℝ)
    (bearing distance : ℝ) : Point ℝ :=
  let lon1 := toRadians p.x
  let lat1 := toRadians p.y
  let brg := toRadians bearing
  let delta := distance / 6371000
  let lat2 := Real.arcsin
    (Real.sin lat1 * Real.cos delta
      + Real.cos lat1 * Real.sin delta * Real.cos brg)
  let lon2 := lon1 + atan2 (Real.sin brg * Real.sin delta * Real.cos lat1)
      (Real.cos delta - Real.sin lat1 * Real.sin lat2)
  Point.mk (toDegrees lon2) (toDegrees lat2)

/-- The spec-side destination point, written with the same two named
sub-expressions. -/
lemma haversineDestinationSpec_unfold (p : Point ℝ) (bearing distance : ℝ) :
    haversineDestinationSpec p bearing distance
      = Point.mk (toDegrees (toRadians p.x + destLngOffset p bearing distance))
          (toDegrees (Real.arcsin (asinArg p bearing distance))) := rfl

/-- C5: the code's destination computation agrees, for every origin point,
bearing and distance, with the spec's formula (radians conversion, angular
distance `distance / 6371000`, arcsine latitude, `lon1 + atan2(...)`
longitude, degree conversion, `x` = longitude and `y` = latitude). -/
theorem haversine_destination_matches_spec (p : Point ℝ)
    (bearing distance : ℝ) :
    haversine_destination p bearing distance
      = haversineDestinationSpec p bearing distance := by
  rw [haversine_destination_unfold, haversineDestinationSpec_unfold, add_comm]

/-- C8: `area` and `haversine_destination` are deterministic pure functions
of their inputs — equal inputs give equal results.  (In this embedding both
are total functions; the source reads no global or static state and mutates
nothing, matching the shallow model.) -/
theorem operations_deterministic :
    (∀ (α : Type) [Field α] (r1 r2 : List (List (Point α))),
        r1 = r2 → area r1 = area r2)
      ∧ (∀ (p q : Point ℝ) (b1 b2 d1 d2 : ℝ),
          p = q → b1 = b2 → d1 = d2 →
            haversine_destination p b1 d1 = haversine_destination q b2 d2) := by
  constructor
  · intro α _ r1 r2 h
    rw [h]
  · intro p q b1 b2 d1 d2 hp hb hd
    rw [hp, hb, hd]

/-- Witness for C8 at concrete inputs. -/
theorem operations_deterministic_witness :
    area ([[Point.mk 0 0]] : List (List (Point ℚ))) = area [[Point.mk 0 0]]
      ∧ haversine_destination (Point.mk 0 0) 0 0
          = haversine_destination (Point.mk 0 0) 0 0 :=
  ⟨operations_deterministic.1 ℚ _ _ rfl,
    operations_deterministic.2 _ _ _ _ _ _ rfl rfl rfl⟩

/-- C9: when the argument passed to `asin` lies in `[-1, 1]`, the returned
latitude (`y` coordinate) lies in `[-90, 90]` degrees, because it is an
arcsine converted to degrees. -/
theorem destination_latitude_in_range (p : Point ℝ) (bearing distance : ℝ)
    (_h1 : -1 ≤ asinArg p bearing distance)
    (_h2 : asinArg p bearing distance ≤ 1) :
    -90 ≤ (haversine_destination p bearing distance).y
      ∧ (haversine_destination p bearing distance).y ≤ 90 := by
  have hy : (haversine_destination p bearing distance).y
      = Real.arcsin (asinArg p bearing distance) * (180 / Real.pi) := rfl
  have hπ : (0:ℝ) < Real.pi := Real.pi_pos
  have hc : (0:ℝ) ≤ 180 / Real.pi := by positivity
  have ht1 : Real.arcsin (asinArg p bearing distance) ≤ Real.pi / 2 :=
    Real.arcsin_le_pi_div_two _
  have ht2 : -(Real.pi / 2) ≤ Real.arcsin (asinArg p bearing distance) :=
    Real.neg_pi_div_two_le_arcsin _
  have key : Real.pi / 2 * (180 / Real.pi) = 90 := by
    field_simp
    ring
  constructor
  · rw [hy]
    have := mul_le_mul_of_nonneg_right ht2 hc
    have hneg : -(Real.pi / 2) * (180 / Real.pi) = -90 := by
      rw [neg_mul, key]
    linarith
  · rw [hy]
    have := mul_le_mul_of_nonneg_right ht1 hc
    linarith

/-- Witness for C9: from the origin `(0, 0)` with bearing `0` and
distance `0`, the asin argument is `0` and the latitude is within range. -/
theorem destination_latitude_in_range_witness :
    (-1 ≤ asinArg (Point.mk 0 0) 0 0 ∧ asinArg (Point.mk 0 0) 0 0 ≤ 1)
      ∧ (-90 ≤ (haversine_destination (Point.mk 0 0) 0 0).y
          ∧ (haversine_destination (Point.mk 0 0) 0 0).y ≤ 90) := by
  have h : asinArg (Point.mk 0 0) 0 0 = 0 := by
    simp [asinArg, toRadians]
  have h1 : (-1:ℝ) ≤ asinArg (Point.mk 0 0) 0 0 := by
    rw [h]; norm_num
  have h2 : asinArg (Point.mk 0 0) 0 0 ≤ 1 := by
    rw [h]; norm_num
  exact ⟨⟨h1, h2⟩, destination_latitude_in_range (Point.mk 0 0) 0 0 h1 h2⟩

/-- The four-quadrant arctangent always lands in `[-π, π]`. -/
lemma atan2_mem_Icc (y x : ℝ) :
    -Real.pi ≤ atan2 y x ∧ atan2 y x ≤ Real.pi := by
  have hπ : (0:ℝ) < Real.pi := Real.pi_pos
  have ha1 : Real.arctan (y / x) < Real.pi / 2 :=
    Real.arctan_lt_pi_div_two (y / x)
  have ha2 : -(Real.pi / 2) < Real.arctan (y / x) :=
    Real.neg_pi_div_two_lt_arctan (y / x)
  unfold atan2
  split_ifs with hx hx0 hy hy2 hy3
  · constructor <;> linarith
  · constructor <;> linarith
  · constructor <;> linarith
  · constructor <;> linarith
  · have hxneg : x < 0 := lt_of_le_of_ne (le_of_not_lt hx) hx0
    have hdiv : y / x ≤ 0 := div_nonpos_iff.mpr (Or.inl ⟨hy3, hxneg.le⟩)
    have hmono : Real.arctan (y / x) ≤ Real.arctan 0 :=
      Real.arctan_strictMono.monotone hdiv
    rw [Real.arctan_zero] at hmono
    constructor <;> linarith
  · have hxneg : x < 0 := lt_of_le_of_ne (le_of_not_lt hx) hx0
    have hyneg : y ≤ 0 := le_of_not_le hy3
    have hdiv : 0 ≤ y / x := div_nonneg_iff.mpr (Or.inr ⟨hyneg, hxneg.le⟩)
    have hmono : Real.arctan 0 ≤ Real.arctan (y / x) :=
      Real.arctan_strictMono.monotone hdiv
    rw [Real.arctan_zero] at hmono
    constructor <;> linarith

/-- `toDegrees` is additive. -/
lemma toDegrees_add (a b : ℝ) :
    toDegrees (a + b) = toDegrees a + toDegrees b := add_mul a b _

/-- Degrees after radians is the identity. -/
lemma toDegrees_toRadians (x : ℝ) : toDegrees (toRadians x) = x := by
  unfold toDegrees toRadians
  field_simp

/-- C10: the code performs no longitude normalization — the returned `x`
equals the origin `x` plus the degree form of an `atan2` result that lies in
`[-180, 180]`, and the returned `x` can itself lie outside `[-180, 180]`
(e.g. starting from longitude `400`). -/
theorem destination_longitude_unnormalized :
    (∀ (p : Point ℝ) (bearing distance : ℝ),
        (haversine_destination p bearing distance).x
            = p.x + toDegrees (destLngOffset p bearing distance)
          ∧ -180 ≤ toDegrees (destLngOffset p bearing distance)
          ∧ toDegrees (destLngOffset p bearing distance) ≤ 180)
      ∧ (∃ (p : Point ℝ) (bearing distance : ℝ),
          180 < (haversine_destination p bearing distance).x) := by
  have hπ : (0:ℝ) < Real.pi := Real.pi_pos
  have hc : (0:ℝ) ≤ 180 / Real.pi := by positivity
  have key : Real.pi * (180 / Real.pi) = 180 := by
    field_simp
  constructor
  · intro p bearing distance
    have hx : (haversine_destination p bearing distance).x
        = toDegrees (destLngOffset p bearing distance + toRadians p.x) := rfl
    have hb := atan2_mem_Icc
      (Real.sin (toRadians bearing) * Real.sin (distance / 6371000)
        * Real.cos (toRadians p.y))
      (Real.cos (distance / 6371000)
        - Real.sin (toRadians p.y)
            * Real.sin (Real.arcsin (asinArg p bearing distance)))
    refine ⟨?_, ?_, ?_⟩
    · rw [hx, toDegrees_add, toDegrees_toRadians, add_comm]
    · have := mul_le_mul_of_nonneg_right hb.1 hc
      have hneg : -Real.pi * (180 / Real.pi) = -180 := by
        rw [neg_mul, key]
      unfold toDegrees destLngOffset
      linarith [this]
    · have := mul_le_mul_of_nonneg_right hb.2 hc
      unfold toDegrees destLngOffset
      linarith [this]
  · refine ⟨Point.mk 400 0, 0, 0, ?_⟩
    have h1 : destLngOffset (Point.mk 400 0) 0 0 = 0 := by
      simp [destLngOffset, toRadians, atan2]
    have hx : (haversine_destination (Point.mk 400 0) 0 0).x
        = toDegrees (destLngOffset (Point.mk 400 0) 0 0
            + toRadians (Point.mk (400:ℝ) 0).x) := rfl
    rw [hx, h1, zero_add, toDegrees_toRadians]
    norm_num

end Geo
